import Mathlib

/-!
Verification development for the refstore reference-documentation manager.

The Rust source is embedded shallowly: pure index manipulation becomes pure
Lean functions over association lists (modelling BTreeMap), filesystem and
git effects become explicit state passing over a small World record, and
fallible operations return Option or Except.  External binaries (git, tar)
and external crates (globset) are modelled by explicit oracles passed as
parameters, with the documented behaviour of the binary encoded where a
claim depends on it (e.g. upward repository discovery of git rev-parse).
-/

set_option linter.unusedVariables false

namespace Refstore

/-! ## Rust path model

Paths are modelled as lists of components, following std::path semantics:
Path::components yields RootDir, ParentDir and Normal components (CurDir is
normalised away).  Path::join appends unless the argument has a root, and
Path::starts_with is a component-wise prefix test without any normalisation
of ParentDir components.  The operating system, in contrast, resolves
ParentDir against the real directory tree; pNormalize models that
resolution for symlink-free trees. -/

inductive PComp where
  | root
  | parent
  | normal (s : String)
deriving DecidableEq, Repr

abbrev RPath := List PComp

/-- Path::join as used by the source: absolute argument replaces self. -/
def pjoin (a b : RPath) : RPath :=
  if b.head? = some PComp.root then b else a ++ b

/-- Path::starts_with: component-wise prefix, no dot-dot resolution. -/
def pStartsWith (self base : RPath) : Bool :=
  base.isPrefixOf self

/-- Resolution of ParentDir components performed by the operating system
when a path is actually opened (symlink-free model). -/
def pNormalize (p : RPath) : RPath :=
  p.foldl
    (fun acc c =>
      match c with
      | PComp.root => acc ++ [PComp.root]
      | PComp.parent =>
        match acc.getLast? with
        | some (PComp.normal _) => acc.dropLast
        | some PComp.root => acc
        | _ => acc ++ [PComp.parent]
      | PComp.normal s => acc ++ [PComp.normal s])
    []

/-- Split a character list on the path separator. -/
def splitSlash : List Char → List (List Char)
  | [] => [[]]
  | c :: rest =>
    match splitSlash rest with
    | [] => [[]]
    | s :: t => if c = '/' then [] :: s :: t else (c :: s) :: t

/-- Path::new on a string: split on the separator; empty and dot segments
vanish, a leading separator gives a RootDir component. -/
def parsePath (s : String) : RPath :=
  let segs := (splitSlash s.data).map (fun cs => String.mk cs)
  let segs2 := segs.filter (fun c => c != "" && c != ".")
  let comps := segs2.map (fun c => if c = ".." then PComp.parent else PComp.normal c)
  match s.data with
  | '/' :: _ => PComp.root :: comps
  | _ => comps

/-! ## Association lists modelling BTreeMap

The Rust stores keep references and bundles in BTreeMap<String, _>.  A map
is modelled as an association list; the maps the program builds always have
strictly sorted keys, and theorems that need that invariant take it as a
hypothesis. -/

def alookup {κ V : Type} [DecidableEq κ] : List (κ × V) → κ → Option V
  | [], _ => none
  | kv :: t, k => if kv.1 = k then some kv.2 else alookup t k

/-- BTreeMap::insert for the sorted-list representation. -/
def ainsert {V : Type} (k : String) (v : V) : List (String × V) → List (String × V)
  | [] => [(k, v)]
  | kv :: t =>
    if kv.1 < k then kv :: ainsert k v t
    else if kv.1 = k then (k, v) :: t
    else (k, v) :: kv :: t

/-- BTreeMap::remove for the list representation (first occurrence). -/
def aerase {κ V : Type} [DecidableEq κ] (k : κ) : List (κ × V) → List (κ × V)
  | [] => []
  | kv :: t => if kv.1 = k then t else kv :: aerase k t

/-- BTreeMap::get_mut followed by a field update (first occurrence). -/
def amodify {κ V : Type} [DecidableEq κ] (k : κ) (f : V → V) : List (κ × V) → List (κ × V)
  | [] => []
  | kv :: t => if kv.1 = k then (kv.1, f kv.2) :: t else kv :: amodify k f t

def akeys {κ V : Type} (l : List (κ × V)) : List κ := l.map (·.1)

def avalues {κ V : Type} (l : List (κ × V)) : List V := l.map (·.2)

theorem alookup_ainsert_self {V : Type} (k : String) (v : V) (l : List (String × V)) :
    alookup (ainsert k v l) k = some v := by
  induction l with
  | nil => simp [ainsert, alookup]
  | cons kv t ih =>
    simp only [ainsert]
    by_cases hlt : kv.1 < k
    · rw [if_pos hlt]
      simp only [alookup]
      rw [if_neg (ne_of_lt hlt)]
      exact ih
    · rw [if_neg hlt]
      by_cases heq : kv.1 = k
      · rw [if_pos heq]
        simp [alookup]
      · rw [if_neg heq]
        simp [alookup]

theorem alookup_ainsert_ne {V : Type} (k k' : String) (v : V) (l : List (String × V))
    (h : k' ≠ k) : alookup (ainsert k v l) k' = alookup l k' := by
  have hne : ¬ k = k' := fun e => h e.symm
  induction l with
  | nil =>
    simp only [ainsert, alookup]
    rw [if_neg hne]
  | cons kv t ih =>
    simp only [ainsert]
    by_cases hlt : kv.1 < k
    · rw [if_pos hlt]
      simp only [alookup]
      by_cases hk : kv.1 = k'
      · rw [if_pos hk, if_pos hk]
      · rw [if_neg hk, if_neg hk, ih]
    · rw [if_neg hlt]
      by_cases heq : kv.1 = k
      · rw [if_pos heq]
        simp only [alookup]
        rw [if_neg hne]
        have hkv : ¬ kv.1 = k' := heq ▸ hne
        rw [if_neg hkv]
      · rw [if_neg heq]
        simp only [alookup]
        rw [if_neg hne]

theorem alookup_aerase_ne {κ V : Type} [DecidableEq κ] (k k' : κ) (l : List (κ × V))
    (h : k' ≠ k) : alookup (aerase k l) k' = alookup l k' := by
  induction l with
  | nil => simp [aerase]
  | cons kv t ih =>
    simp only [aerase]
    by_cases heq : kv.1 = k
    · rw [if_pos heq]
      simp only [alookup]
      have hkv : ¬ kv.1 = k' := by
        rw [heq]; exact fun e => h e.symm
      rw [if_neg hkv]
    · rw [if_neg heq]
      simp only [alookup]
      by_cases hk : kv.1 = k'
      · rw [if_pos hk, if_pos hk]
      · rw [if_neg hk, if_neg hk, ih]

theorem alookup_eq_none_of_not_mem_keys {κ V : Type} [DecidableEq κ] (k : κ)
    (l : List (κ × V)) (h : k ∉ akeys l) : alookup l k = none := by
  induction l with
  | nil => rfl
  | cons kv t ih =>
    simp only [akeys, List.map_cons, List.mem_cons] at h
    push_neg at h
    simp only [alookup]
    rw [if_neg (fun e => h.1 e.symm)]
    exact ih h.2

theorem alookup_aerase_self {κ V : Type} [DecidableEq κ] (k : κ) (l : List (κ × V))
    (h : (akeys l).Nodup) : alookup (aerase k l) k = none := by
  induction l with
  | nil => rfl
  | cons kv t ih =>
    simp only [akeys, List.map_cons, List.nodup_cons] at h
    simp only [aerase]
    by_cases heq : kv.1 = k
    · rw [if_pos heq]
      exact alookup_eq_none_of_not_mem_keys k t (heq ▸ h.1)
    · rw [if_neg heq]
      simp only [alookup]
      rw [if_neg heq]
      exact ih h.2

theorem alookup_amodify_self {κ V : Type} [DecidableEq κ] (k : κ) (f : V → V)
    (l : List (κ × V)) : alookup (amodify k f l) k = (alookup l k).map f := by
  induction l with
  | nil => simp [amodify, alookup]
  | cons kv t ih =>
    by_cases heq : kv.1 = k
    · simp [amodify, heq, alookup]
    · simp [amodify, heq, alookup, ih]

/-! ## Data model (src/model)

Timestamps (chrono DateTime<Utc>) are modelled as Nat instants; PathBuf
fields inside the data model are modelled as RPath, except the manifest
entry path override, which stays the raw string the TOML carries and is
parsed where the synchroniser joins it. -/

inductive ReferenceKind where
  | file
  | directory
  | gitRepo
deriving DecidableEq, Repr

/-- Display impl of ReferenceKind. -/
def kind_to_string : ReferenceKind → String
  | ReferenceKind.file => "file"
  | ReferenceKind.directory => "directory"
  | ReferenceKind.gitRepo => "git_repo"

inductive ReferenceSource where
  | localSrc (path : RPath)
  | git (url : String) (gitRef : Option String) (subpath : Option RPath)
  | remote (url : String)
deriving DecidableEq, Repr

structure Reference where
  name : String
  kind : ReferenceKind
  source : ReferenceSource
  description : Option String
  tags : List String
  added_at : Nat
  last_synced : Option Nat
  checksum : Option String
deriving DecidableEq, Repr

structure Bundle where
  name : String
  description : Option String
  tags : List String
  references : List String
  created_at : Nat
deriving DecidableEq, Repr

structure ManifestEntry where
  path : Option String
  version : Option String
  includeGlobs : List String
  excludeGlobs : List String
deriving DecidableEq, Repr

/-- Default impl derived for ManifestEntry. -/
def ManifestEntry.default : ManifestEntry := ⟨none, none, [], []⟩

/-- Manifest from src/model/manifest.rs.  The bundles field is not declared
in the struct under src/, but cli/status.rs and the project store callers
use it; it is modelled from the spec: an ordered list of bundle names to
expand, serialized as the TOML key bundles. -/
structure Manifest where
  version : Nat
  gitignore_references : Bool
  references : List (String × ManifestEntry)
  bundles : List String
deriving DecidableEq, Repr

/-- RepositoryIndex from src/model/repository.rs.  The bundles map is not
declared in the struct under src/, but the registry and repository stores
read and write it; it is modelled from the spec index schema:
map<name, Bundle> serialized under the bundles TOML key. -/
structure RepositoryIndex where
  version : Nat
  references : List (String × Reference)
  bundles : List (String × Bundle)
deriving DecidableEq, Repr

/-! ## Registry store (src/store/registry.rs) -/

structure RegistryStore where
  root : RPath
  index : RepositoryIndex
deriving DecidableEq, Repr

def RegistryStore.content_path (s : RegistryStore) (name : String) : RPath :=
  s.root ++ [PComp.normal "content", PComp.normal name]

def RegistryStore.get (s : RegistryStore) (name : String) : Option Reference :=
  alookup s.index.references name

def RegistryStore.get_bundle (s : RegistryStore) (name : String) : Option Bundle :=
  alookup s.index.bundles name

/-- Filter predicate of RegistryStore::list. -/
def refMatches (tag kind : Option String) (r : Reference) : Bool :=
  (match tag with
   | some t => r.tags.contains t
   | none => true)
  && (match kind with
      | some k => kind_to_string r.kind == k
      | none => true)

def RegistryStore.list (s : RegistryStore) (tag kind : Option String) : List Reference :=
  (avalues s.index.references).filter (refMatches tag kind)

def RegistryStore.list_bundles (s : RegistryStore) (tag : Option String) : List Bundle :=
  (avalues s.index.bundles).filter
    (fun b =>
      match tag with
      | some t => b.tags.contains t
      | none => true)

/-! ## Repository store (src/store/repository.rs): federated reads -/

structure GlobalConfig where
  git_depth : Nat
deriving DecidableEq, Repr

structure RepositoryStore where
  root : RPath
  localReg : RegistryStore
  remotes : List (String × RegistryStore)
  config : GlobalConfig
deriving DecidableEq, Repr

structure ResolvedReference where
  reference : Reference
  content_path : RPath
  registry_name : String
deriving DecidableEq, Repr

def resolveRemotes (name : String) : List (String × RegistryStore) → Option ResolvedReference
  | [] => none
  | (regName, store) :: rest =>
    match store.get name with
    | some r => some ⟨r, store.content_path name, regName⟩
    | none => resolveRemotes name rest

/-- RepositoryStore::resolve: local registry first, then remotes in stored
order (load_remote_registries sorts that list by name ascending). -/
def RepositoryStore.resolve (repo : RepositoryStore) (name : String) :
    Option ResolvedReference :=
  match repo.localReg.get name with
  | some r => some ⟨r, repo.localReg.content_path name, "local"⟩
  | none => resolveRemotes name repo.remotes

def RepositoryStore.get (repo : RepositoryStore) (name : String) : Option Reference :=
  (repo.resolve name).map (·.reference)

def RepositoryStore.resolve_content_path (repo : RepositoryStore) (name : String) :
    Option RPath :=
  (repo.resolve name).map (·.content_path)

def findRemoteBundle (name : String) : List (String × RegistryStore) → Option Bundle
  | [] => none
  | (_, store) :: rest =>
    match store.get_bundle name with
    | some b => some b
    | none => findRemoteBundle name rest

def RepositoryStore.get_bundle (repo : RepositoryStore) (name : String) : Option Bundle :=
  match repo.localReg.get_bundle name with
  | some b => some b
  | none => findRemoteBundle name repo.remotes

/-- Seen-set threaded deduplication of RepositoryStore::list.  The Rust
loop walks the remote registries in order and pushes a hit only when
inserting its name into the seen set succeeds; threading one seen set
through the concatenation of the per-remote lists is the same traversal. -/
def remoteDedup (seen : List String) : List Reference → List Reference
  | [] => []
  | r :: t =>
    if r.name ∈ seen then remoteDedup seen t
    else r :: remoteDedup (r.name :: seen) t

def RepositoryStore.list (repo : RepositoryStore) (tag kind : Option String) :
    List Reference :=
  let localList := repo.localReg.list tag kind
  localList ++
    remoteDedup (localList.map (·.name))
      ((repo.remotes.map (fun p => p.2.list tag kind)).flatten)

/-! ## Resolution precedence lemmas -/

theorem resolveRemotes_mem (name : String) (l : List (String × RegistryStore))
    (res : ResolvedReference) (h : resolveRemotes name l = some res) :
    ∃ store, (res.registry_name, store) ∈ l ∧ store.get name = some res.reference := by
  induction l with
  | nil => simp [resolveRemotes] at h
  | cons p rest ih =>
    obtain ⟨rn, store⟩ := p
    simp only [resolveRemotes] at h
    cases hs : store.get name with
    | some r =>
      rw [hs] at h
      simp only [Option.some.injEq] at h
      subst h
      exact ⟨store, List.mem_cons_self _ _, hs⟩
    | none =>
      rw [hs] at h
      obtain ⟨st, hm, hg⟩ := ih h
      exact ⟨st, List.mem_cons_of_mem _ hm, hg⟩

theorem resolveRemotes_first (name : String) (l : List (String × RegistryStore))
    (res : ResolvedReference) (hsort : l.Pairwise (fun a b => a.1 < b.1))
    (h : resolveRemotes name l = some res) :
    ∀ p ∈ l, (p.2.get name).isSome → res.registry_name ≤ p.1 := by
  induction l with
  | nil => simp [resolveRemotes] at h
  | cons q rest ih =>
    obtain ⟨rn, store⟩ := q
    simp only [resolveRemotes] at h
    intro p hp hps
    cases hs : store.get name with
    | some r =>
      rw [hs] at h
      simp only [Option.some.injEq] at h
      subst h
      rcases List.mem_cons.mp hp with rfl | hm
      · exact le_refl _
      · exact le_of_lt ((List.pairwise_cons.mp hsort).1 p hm)
    | none =>
      rw [hs] at h
      rcases List.mem_cons.mp hp with rfl | hm
      · simp only [hs, Option.isSome_none] at hps
        exact absurd hps (by simp)
      · exact ih (List.pairwise_cons.mp hsort).2 h p hm hps

theorem resolveRemotes_isSome (name : String) (l : List (String × RegistryStore))
    (p : String × RegistryStore) (hp : p ∈ l) (hps : (p.2.get name).isSome) :
    (resolveRemotes name l).isSome := by
  induction l with
  | nil => cases hp
  | cons q rest ih =>
    obtain ⟨rn, store⟩ := q
    simp only [resolveRemotes]
    cases hs : store.get name with
    | some r => simp
    | none =>
      rcases List.mem_cons.mp hp with rfl | hm
      · rw [hs] at hps; simp at hps
      · exact ih hm

/-- C1: Repository::resolve searches the local registry first, then the
remote registries in ascending name order (load_remote_registries sorts the
remotes list, taken as the hypothesis hsort); the first hit wins, and the
resolved registry_name is "local" exactly for local hits (add_registry
rejects the reserved remote name "local", taken as the hypothesis hnl). -/
theorem resolve_precedence_and_registry_name
    (repo : RepositoryStore) (name : String)
    (hsort : repo.remotes.Pairwise (fun a b => a.1 < b.1))
    (hnl : ∀ p ∈ repo.remotes, p.1 ≠ "local") :
    (∀ r, repo.localReg.get name = some r →
      repo.resolve name = some ⟨r, repo.localReg.content_path name, "local"⟩)
    ∧ (∀ res, repo.resolve name = some res →
        (res.registry_name = "local" ↔ (repo.localReg.get name).isSome))
    ∧ (∀ res, repo.resolve name = some res → res.registry_name ≠ "local" →
        ∃ store, (res.registry_name, store) ∈ repo.remotes ∧
          store.get name = some res.reference ∧
          ∀ p ∈ repo.remotes, (p.2.get name).isSome → res.registry_name ≤ p.1)
    ∧ (repo.localReg.get name = none →
        ∀ p ∈ repo.remotes, (p.2.get name).isSome → (repo.resolve name).isSome) := by
  refine ⟨?_, ?_, ?_, ?_⟩
  · intro r hr
    simp [RepositoryStore.resolve, hr]
  · intro res hres
    cases hl : repo.localReg.get name with
    | some r =>
      simp only [RepositoryStore.resolve, hl, Option.some.injEq] at hres
      subst hres
      simp
    | none =>
      simp only [RepositoryStore.resolve, hl] at hres
      obtain ⟨store, hm, _⟩ := resolveRemotes_mem name repo.remotes res hres
      constructor
      · intro hloc
        exact absurd hloc (hnl _ hm)
      · intro hs
        simp [Option.isSome_none] at hs
  · intro res hres hne
    cases hl : repo.localReg.get name with
    | some r =>
      simp only [RepositoryStore.resolve, hl, Option.some.injEq] at hres
      subst hres
      simp at hne
    | none =>
      simp only [RepositoryStore.resolve, hl] at hres
      obtain ⟨store, hm, hg⟩ := resolveRemotes_mem name repo.remotes res hres
      exact ⟨store, hm, hg, resolveRemotes_first name repo.remotes res hsort hres⟩
  · intro hl p hp hps
    simp only [RepositoryStore.resolve, hl]
    exact resolveRemotes_isSome name repo.remotes p hp hps

/-! Concrete fixture for the C1 witness: reference A lives in both the
local registry and the remote registry r; B only in the remote. -/

def refAw : Reference :=
  ⟨"A", ReferenceKind.file, ReferenceSource.localSrc [PComp.root, PComp.normal "a"],
   none, [], 0, none, none⟩

def refAshadow : Reference :=
  ⟨"A", ReferenceKind.directory, ReferenceSource.localSrc [PComp.root, PComp.normal "s"],
   none, [], 0, none, none⟩

def refBw : Reference :=
  ⟨"B", ReferenceKind.file, ReferenceSource.localSrc [PComp.root, PComp.normal "b"],
   none, [], 0, none, none⟩

def repoW : RepositoryStore :=
  { root := [PComp.root, PComp.normal "data"]
    localReg :=
      { root := [PComp.root, PComp.normal "data"]
        index := ⟨1, [("A", refAw)], []⟩ }
    remotes :=
      [("r",
        { root := [PComp.root, PComp.normal "data", PComp.normal "registries",
                   PComp.normal "r"]
          index := ⟨1, [("A", refAshadow), ("B", refBw)], []⟩ })]
    config := ⟨1⟩ }

/-- C1 witness: on the concrete two-registry repository, the name present
in both registries resolves to the local copy, labelled "local". -/
theorem resolve_precedence_witness :
    RepositoryStore.resolve repoW "A" =
      some ⟨refAw, RegistryStore.content_path repoW.localReg "A", "local"⟩ :=
  (resolve_precedence_and_registry_name repoW "A" (by decide) (by decide)).1
    refAw (by decide)

/-! ## World: filesystem and git state

State touched by the store operations: the set of directories, the set of
files, and the directories that contain a .git (with the hash HEAD resolves
to, none when the repository has no commits yet).  git rev-parse HEAD run
with a working directory discovers the nearest enclosing directory that
contains .git (documented git behaviour, encoded in head_hash); is_git_repo
in src/git/mod.rs only tests path/.git existence. -/

structure World where
  dirs : List RPath
  files : List RPath
  git : List (RPath × Option String)
deriving DecidableEq, Repr

def wDirExists (w : World) (p : RPath) : Bool := decide (p ∈ w.dirs)

def wFileExists (w : World) (p : RPath) : Bool := decide (p ∈ w.files)

/-- Path::exists. -/
def wExists (w : World) (p : RPath) : Bool := wDirExists w p || wFileExists w p

/-- is_git_repo from src/git/mod.rs: path.join(".git").exists(). -/
def is_git_repo (w : World) (p : RPath) : Bool := (alookup w.git p).isSome

def headHashAux (w : World) : Nat → RPath → Option String
  | 0, _ => none
  | n + 1, p =>
    match alookup w.git p with
    | some h => h
    | none => if p.isEmpty then none else headHashAux w n p.dropLast

/-- head_hash: git rev-parse HEAD with the given working directory; the
repository is discovered upward from the directory, and the call fails when
no repository is found or HEAD does not resolve. -/
def head_hash (w : World) (p : RPath) : Option String := headHashAux w (p.length + 1) p

/-- fs::remove_dir_all: the path and everything under it disappears. -/
def remove_dir_all (w : World) (p : RPath) : World :=
  { dirs := w.dirs.filter (fun d => !(p.isPrefixOf d))
    files := w.files.filter (fun f => !(p.isPrefixOf f))
    git := w.git.filter (fun e => !(p.isPrefixOf e.1)) }

/-- Oracle for the network side of git clone: a url maps to the head hash
and the (relative) file list of the cloned work tree, or to none when the
clone fails. -/
def RemoteOracle := String → Option (String × List RPath)

/-- clone_shallow: materialise the remote work tree at the target together
with its .git. -/
def clone_shallow (w : World) (remote : RemoteOracle) (url : String) (target : RPath) :
    Option World :=
  match remote url with
  | none => none
  | some (h, fs) =>
    some
      { dirs := target :: w.dirs
        files := w.files ++ fs.map (fun f => target ++ f)
        git := (target, some h) :: w.git }

/-- strip_git_dir: remove .git inside a cloned reference. -/
def strip_git_dir (w : World) (p : RPath) : World :=
  { w with git := aerase p w.git }

/-- Retarget a path under src to the same relative path under dst. -/
def reTarget (src dst d : RPath) : Option RPath :=
  if src.isPrefixOf d && d != src then some (dst ++ d.drop src.length) else none

/-- copy_dir_recursive from src/store/repository.rs. -/
def copy_dir_recursive (w : World) (src dst : RPath) : World :=
  { dirs := dst :: (w.dirs ++ w.dirs.filterMap (reTarget src dst))
    files := w.files ++ w.files.filterMap (reTarget src dst)
    git := w.git }

/-! ## Repository store: write operations -/

def validate_name (name : String) : Bool :=
  !name.isEmpty &&
    name.data.all (fun c => c.isAlphanum || c == '-' || c == '_' || c == '.')

/-- fetch_content from src/store/repository.rs.  For git sources the clone
is immediately followed by strip_git_dir, before control returns to the
caller. -/
def fetch_content (w : World) (remote : RemoteOracle) (reference : Reference)
    (content_dir : RPath) : Except String World :=
  match reference.source with
  | ReferenceSource.localSrc path =>
    if wFileExists w path then
      Except.ok
        { w with
          dirs := content_dir :: w.dirs
          files :=
            (content_dir ++
              [(match path.getLast? with
                | some c => c
                | none => PComp.normal "file")]) :: w.files }
    else if wDirExists w path then Except.ok (copy_dir_recursive w path content_dir)
    else Except.error "source path does not exist"
  | ReferenceSource.git url _ _ =>
    match clone_shallow w remote url content_dir with
    | some w1 => Except.ok (strip_git_dir w1 content_dir)
    | none => Except.error "git clone failed"
  | ReferenceSource.remote url => Except.error ("remote sources not yet supported: " ++ url)

/-- RepositoryStore::add.  The index save and the root commit are modelled
as always succeeding. -/
def RepositoryStore.add (repo : RepositoryStore) (w : World) (remote : RemoteOracle)
    (reference : Reference) : Except String (RepositoryStore × World) :=
  if (repo.localReg.get reference.name).isSome then Except.error "reference exists"
  else if !(validate_name reference.name) then Except.error "invalid name"
  else
    match fetch_content w remote reference (repo.localReg.content_path reference.name) with
    | Except.error e => Except.error e
    | Except.ok w1 =>
      Except.ok
        ({ repo with
           localReg :=
             { repo.localReg with
               index :=
                 { repo.localReg.index with
                   references :=
                     ainsert reference.name reference repo.localReg.index.references } } },
         w1)

/-- RepositoryStore::remove.  The error of fs::remove_dir_all on the
content directory is ignored by the source; the deleteOk flag feeds that
outcome in. -/
def RepositoryStore.remove (repo : RepositoryStore) (w : World) (deleteOk : Bool)
    (name : String) : Option (RepositoryStore × World × Reference) :=
  match alookup repo.localReg.index.references name with
  | none => none
  | some r =>
    let content_dir := repo.localReg.content_path name
    let w1 :=
      if wExists w content_dir then
        (if deleteOk then remove_dir_all w content_dir else w)
      else w
    some
      ({ repo with
         localReg :=
           { repo.localReg with
             index :=
               { repo.localReg.index with
                 references := aerase name repo.localReg.index.references } } },
       w1, r)

/-- Body of the get_mut closure inside RepositoryStore::update: refresh
last_synced, and for git sources overwrite checksum when the head_hash
call (whose result is the hh argument) succeeded. -/
def refreshGitMeta (now : Nat) (hh : Option String) (r : Reference) : Reference :=
  let r1 := { r with last_synced := some now }
  match r1.source with
  | ReferenceSource.git _ _ _ =>
    match hh with
    | some h => { r1 with checksum := some h }
    | none => r1
  | _ => r1

/-- RepositoryStore::update.  Deletes the content directory, re-fetches via
fetch_content (which for git sources strips .git before returning), then
refreshes last_synced and, for git sources, overwrites checksum with
whatever head_hash returns for the already stripped content directory. -/
def RepositoryStore.update (repo : RepositoryStore) (w : World) (remote : RemoteOracle)
    (now : Nat) (name : String) : Except String (RepositoryStore × World) :=
  match repo.localReg.get name with
  | none => Except.error ("reference not found: " ++ name)
  | some reference =>
    let content_dir := repo.localReg.content_path name
    let w1 := if wExists w content_dir then remove_dir_all w content_dir else w
    match fetch_content w1 remote reference content_dir with
    | Except.error e => Except.error e
    | Except.ok w2 =>
      let refs :=
        amodify name (refreshGitMeta now (head_hash w2 content_dir))
          repo.localReg.index.references
      Except.ok
        ({ repo with
           localReg :=
             { repo.localReg with
               index := { repo.localReg.index with references := refs } } },
         w2)

theorem refreshGitMeta_spec (now : Nat) (hh : Option String) (r : Reference)
    (url : String) (gr : Option String) (sp : Option RPath)
    (hsrc : r.source = ReferenceSource.git url gr sp) :
    (refreshGitMeta now hh r).last_synced = some now ∧
    (refreshGitMeta now hh r).checksum =
      (match hh with
       | some x => some x
       | none => r.checksum) := by
  cases hh <;> simp [refreshGitMeta, hsrc]

theorem resolveRemotes_eq_none (name : String) (l : List (String × RegistryStore))
    (h : ∀ p ∈ l, p.2.get name = none) : resolveRemotes name l = none := by
  induction l with
  | nil => rfl
  | cons q rest ih =>
    obtain ⟨rn, store⟩ := q
    simp only [resolveRemotes]
    have hq := h (rn, store) (List.mem_cons_self _ _)
    simp only at hq
    rw [hq]
    exact ih (fun p hp => h p (List.mem_cons_of_mem _ hp))

theorem wExists_remove_dir_all_self (w : World) (p : RPath) :
    wExists (remove_dir_all w p) p = false := by
  have hpre : p.isPrefixOf p = true := by
    simp [List.isPrefixOf_iff_prefix]
  simp [wExists, wDirExists, wFileExists, remove_dir_all, List.mem_filter, hpre]

/-! ## C4 fixtures: the same name in local and in a remote registry -/

def dataRoot : RPath := [PComp.root, PComp.normal "data"]

def refC4L : Reference :=
  ⟨"a", ReferenceKind.directory, ReferenceSource.localSrc [PComp.root, PComp.normal "src"],
   none, [], 0, none, none⟩

def refC4R : Reference :=
  ⟨"a", ReferenceKind.directory, ReferenceSource.localSrc [PComp.root, PComp.normal "oth"],
   none, [], 0, none, none⟩

def repoC4 : RepositoryStore :=
  { root := dataRoot
    localReg := { root := dataRoot, index := ⟨1, [("a", refC4L)], []⟩ }
    remotes :=
      [("r",
        { root := dataRoot ++ [PComp.normal "registries", PComp.normal "r"]
          index := ⟨1, [("a", refC4R)], []⟩ })]
    config := ⟨1⟩ }

def wC4 : World :=
  { dirs :=
      [dataRoot, dataRoot ++ [PComp.normal "content"],
       dataRoot ++ [PComp.normal "content", PComp.normal "a"]]
    files := []
    git := [(dataRoot, some "aaaa")] }

def repoC4r : RepositoryStore :=
  { repoC4 with localReg := { repoC4.localReg with index := ⟨1, [], []⟩ } }

/-- C4 counterexample: remove("a") succeeds (the content-dir deletion hits
an I/O error, which the source ignores, and the name also exists in remote
r), yet afterwards get("a") returns the remote reference rather than being
absent and the content path still exists on disk. -/
theorem remove_remote_shadow_counterexample :
    RepositoryStore.remove repoC4 wC4 false "a" = some (repoC4r, wC4, refC4L) ∧
    RepositoryStore.get repoC4r "a" = some refC4R ∧
    wExists wC4 (RegistryStore.content_path repoC4.localReg "a") = true := by
  refine ⟨?_, ?_, ?_⟩ <;> decide

/-- C4 (amended): whenever remove(name) succeeds, the local registry no
longer contains the name; get(name) is absent provided no attached remote
registry also carries the name; and the content path no longer exists
provided the ignored content-directory deletion actually succeeded. -/
theorem remove_postcondition (repo : RepositoryStore) (w : World) (dok : Bool)
    (name : String) (repo' : RepositoryStore) (w' : World) (rr : Reference)
    (hnodup : (akeys repo.localReg.index.references).Nodup)
    (hrm : RepositoryStore.remove repo w dok name = some (repo', w', rr)) :
    repo'.localReg.get name = none
    ∧ ((∀ p ∈ repo.remotes, p.2.get name = none) → RepositoryStore.get repo' name = none)
    ∧ (dok = true → wExists w' (RegistryStore.content_path repo.localReg name) = false) := by
  simp only [RepositoryStore.remove] at hrm
  cases hl : alookup repo.localReg.index.references name with
  | none => rw [hl] at hrm; cases hrm
  | some r =>
    rw [hl] at hrm
    simp only [Option.some.injEq, Prod.mk.injEq] at hrm
    obtain ⟨h1, h2, h3⟩ := hrm
    have hget : repo'.localReg.get name = none := by
      rw [← h1]
      simp only [RegistryStore.get]
      exact alookup_aerase_self name _ hnodup
    refine ⟨hget, ?_, ?_⟩
    · intro hre
      have hrem : repo'.remotes = repo.remotes := by rw [← h1]
      simp only [RepositoryStore.get, RepositoryStore.resolve, hget, hrem]
      rw [resolveRemotes_eq_none name repo.remotes hre]
      rfl
    · intro hdok
      subst hdok
      by_cases hex : wExists w (RegistryStore.content_path repo.localReg name) = true
      · rw [← h2]
        simp only [hex, if_true, if_pos]
        exact wExists_remove_dir_all_self w _
      · rw [← h2]
        simp only [Bool.not_eq_true] at hex
        simp [hex]

/-! C4 witness fixture: no remote shadow, deletion succeeds. -/

def repoC4b : RepositoryStore :=
  { root := dataRoot
    localReg := { root := dataRoot, index := ⟨1, [("a", refC4L)], []⟩ }
    remotes := []
    config := ⟨1⟩ }

def repoC4br : RepositoryStore :=
  { repoC4b with localReg := { repoC4b.localReg with index := ⟨1, [], []⟩ } }

def wC4r : World :=
  remove_dir_all wC4 (RegistryStore.content_path repoC4b.localReg "a")

/-- C4 witness: on the shadow-free fixture with a successful deletion, the
amended postcondition yields an absent reference and a removed content
directory. -/
theorem remove_postcondition_witness :
    RepositoryStore.get repoC4br "a" = none ∧
    wExists wC4r (RegistryStore.content_path repoC4b.localReg "a") = false := by
  have h := remove_postcondition repoC4b wC4 true "a" repoC4br wC4r refC4L
    (by decide) (by decide)
  exact ⟨h.2.1 (by decide), h.2.2 rfl⟩

/-! ## C5: add_bundle -/

inductive RefErr where
  | bundleExists (name : String)
  | invalidName (name : String)
  | bundleInvalidReference (bundle reference : String)
deriving DecidableEq, Repr

def firstUnresolvedRef (repo : RepositoryStore) : List String → Option String
  | [] => none
  | r :: t => if (repo.get r).isSome then firstUnresolvedRef repo t else some r

/-- RepositoryStore::add_bundle.  The checks run in source order (duplicate
bundle, name validation, member resolution across all registries) before
the index is touched; index save and commit are modelled as succeeding. -/
def RepositoryStore.add_bundle (repo : RepositoryStore) (b : Bundle) :
    RepositoryStore × Option RefErr :=
  if (repo.localReg.get_bundle b.name).isSome then
    (repo, some (RefErr.bundleExists b.name))
  else if !(validate_name b.name) then (repo, some (RefErr.invalidName b.name))
  else
    match firstUnresolvedRef repo b.references with
    | some r => (repo, some (RefErr.bundleInvalidReference b.name r))
    | none =>
      ({ repo with
         localReg :=
           { repo.localReg with
             index :=
               { repo.localReg.index with
                 bundles := ainsert b.name b repo.localReg.index.bundles } } },
       none)

theorem firstUnresolvedRef_eq_none (repo : RepositoryStore) (l : List String) :
    firstUnresolvedRef repo l = none ↔ ∀ r ∈ l, (repo.get r).isSome := by
  induction l with
  | nil => simp [firstUnresolvedRef]
  | cons r t ih =>
    by_cases hr : (repo.get r).isSome
    · simp [firstUnresolvedRef, hr, ih]
    · simp [firstUnresolvedRef, hr]

/-- C5: add_bundle fails exactly when the name is invalid, a bundle of the
name already exists locally, or some member fails to resolve in every
attached registry; on failure the local index is untouched, and after
success get_bundle returns exactly the inserted bundle. -/
theorem add_bundle_spec (repo : RepositoryStore) (b : Bundle) :
    ((repo.add_bundle b).2 = none ↔
      (repo.localReg.get_bundle b.name = none ∧ validate_name b.name = true ∧
        ∀ r ∈ b.references, (repo.get r).isSome))
    ∧ ((repo.add_bundle b).2 ≠ none → (repo.add_bundle b).1 = repo)
    ∧ ((repo.add_bundle b).2 = none →
        (repo.add_bundle b).1.get_bundle b.name = some b) := by
  by_cases hex : (repo.localReg.get_bundle b.name).isSome
  · have hne : ¬ repo.localReg.get_bundle b.name = none := by
      intro h; rw [h] at hex; simp at hex
    simp [RepositoryStore.add_bundle, hex, hne]
  · have heq : repo.localReg.get_bundle b.name = none := by
      cases h : repo.localReg.get_bundle b.name with
      | none => rfl
      | some x => rw [h] at hex; simp at hex
    by_cases hv : validate_name b.name = true
    · cases hf : firstUnresolvedRef repo b.references with
      | some r =>
        have hnall : ¬ ∀ x ∈ b.references, (repo.get x).isSome := by
          intro hall
          rw [(firstUnresolvedRef_eq_none repo b.references).mpr hall] at hf
          cases hf
        simp [RepositoryStore.add_bundle, hex, hv, hf, heq, hnall]
      | none =>
        have hall := (firstUnresolvedRef_eq_none repo b.references).mp hf
        have hout : (repo.add_bundle b).2 = none := by
          simp [RepositoryStore.add_bundle, hex, hv, hf]
        refine ⟨by rw [hout]; exact iff_of_true rfl ⟨heq, hv, hall⟩, ?_, ?_⟩
        · intro hc
          exact absurd (by simp [RepositoryStore.add_bundle, hex, hv, hf]) hc
        · intro _
          simp only [RepositoryStore.add_bundle, hex, hv, hf]
          simp only [Bool.not_true, Bool.false_eq_true, if_false, if_neg]
          simp [RepositoryStore.get_bundle, RegistryStore.get_bundle,
            alookup_ainsert_self]
    · simp [RepositoryStore.add_bundle, hex, hv, heq]

/-! C5 witness fixture. -/

def repoC5 : RepositoryStore :=
  { root := dataRoot
    localReg := { root := dataRoot, index := ⟨1, [("a", refC4L)], []⟩ }
    remotes := []
    config := ⟨1⟩ }

def bundleC5 : Bundle := ⟨"docs", none, [], ["a"], 0⟩

/-- C5 witness: adding a bundle whose single member resolves locally
succeeds and get_bundle then returns exactly that bundle. -/
theorem add_bundle_spec_witness :
    (RepositoryStore.add_bundle repoC5 bundleC5).1.get_bundle "docs" = some bundleC5 :=
  (add_bundle_spec repoC5 bundleC5).2.2 (by decide)

/-! ## C3: update of a git-sourced reference -/

theorem alookup_git_remove_dir_all_self (w : World) (p : RPath) :
    alookup (remove_dir_all w p).git p = none := by
  apply alookup_eq_none_of_not_mem_keys
  intro hmem
  simp only [remove_dir_all, akeys, List.mem_map] at hmem
  obtain ⟨e, he, heq⟩ := hmem
  rw [List.mem_filter] at he
  rw [heq] at he
  have : p.isPrefixOf p = true := by simp [List.isPrefixOf_iff_prefix]
  rw [this] at he
  simp at he

theorem not_mem_files_remove_dir_all (w : World) (p : RPath) (f : RPath) :
    (p ++ f) ∉ (remove_dir_all w p).files := by
  intro hmem
  simp only [remove_dir_all, List.mem_filter] at hmem
  have : p.isPrefixOf (p ++ f) = true := by
    rw [List.isPrefixOf_iff_prefix]
    exact ⟨f, rfl⟩
  rw [this] at hmem
  simp at hmem

def refC3 : Reference :=
  ⟨"n", ReferenceKind.gitRepo, ReferenceSource.git "u" none none, none, [], 0, none, none⟩

def repoC3 : RepositoryStore :=
  { root := dataRoot
    localReg := { root := dataRoot, index := ⟨1, [("n", refC3)], []⟩ }
    remotes := []
    config := ⟨1⟩ }

def contentC3 : RPath := dataRoot ++ [PComp.normal "content", PComp.normal "n"]

def wC3 : World :=
  { dirs := [dataRoot, dataRoot ++ [PComp.normal "content"], contentC3]
    files := [contentC3 ++ [PComp.normal "old.md"]]
    git := [(dataRoot, some "aaaa")] }

/-- Clone oracle for C3: url u clones at head bbbb with one README file. -/
def remoteC3 : RemoteOracle := fun url =>
  if url = "u" then some ("bbbb", [[PComp.normal "README.md"]]) else none

/-- C3 counterexample: after update of the git-sourced reference, the
recorded checksum is the repository root head aaaa (found by upward git
discovery from the already stripped content directory), not the head bbbb
of the just-cloned content, and the content directory is no longer a git
repository at the moment the checksum is read. -/
theorem update_checksum_counterexample :
    (RepositoryStore.update repoC3 wC3 remoteC3 7 "n").toOption.map
        (fun out => (out.1.localReg.get "n").map (fun r => r.checksum)) =
      some (some (some "aaaa"))
    ∧ remoteC3 "u" = some ("bbbb", [[PComp.normal "README.md"]])
    ∧ (RepositoryStore.update repoC3 wC3 remoteC3 7 "n").toOption.map
        (fun out => is_git_repo out.2 contentC3) = some false
    ∧ some (some ("aaaa" : String)) ≠ some (some "bbbb") := by
  refine ⟨?_, ?_, ?_, ?_⟩ <;> decide

/-- C3 (amended): update deletes the existing content directory and
re-fetches it (afterwards the files under the content path are exactly the
clone work tree) and refreshes last_synced; but fetch_content strips the
clone .git before returning, so the subsequent head_hash call sees a
directory that is not a git repository, and the checksum recorded for a git
source is whatever upward repository discovery yields there (the data-dir
root head), not the head of the just-cloned content. -/
theorem update_spec (repo : RepositoryStore) (w : World) (remote : RemoteOracle)
    (now : Nat) (name : String) (r : Reference) (url : String)
    (gr : Option String) (sp : Option RPath) (h : String) (fs : List RPath)
    (hget : repo.localReg.get name = some r)
    (hsrc : r.source = ReferenceSource.git url gr sp)
    (hrem : remote url = some (h, fs))
    (hcd : wExists w (repo.localReg.content_path name) = true) :
    ∃ repo' w', RepositoryStore.update repo w remote now name = Except.ok (repo', w')
      ∧ is_git_repo w' (repo.localReg.content_path name) = false
      ∧ (∀ f, (repo.localReg.content_path name ++ f) ∈ w'.files ↔ f ∈ fs)
      ∧ ∃ r', repo'.localReg.get name = some r'
          ∧ r'.last_synced = some now
          ∧ r'.checksum =
              (match head_hash w' (repo.localReg.content_path name) with
               | some hh => some hh
               | none => r.checksum) := by
  simp only [RepositoryStore.update, hget, hcd, if_true]
  simp only [fetch_content, hsrc, clone_shallow, hrem]
  set cd := repo.localReg.content_path name with hcddef
  refine ⟨_, _, rfl, ?_, ?_, ?_⟩
  · simp only [is_git_repo, strip_git_dir]
    have : aerase cd ((cd, some h) :: (remove_dir_all w cd).git)
        = (remove_dir_all w cd).git := by
      simp [aerase]
    rw [this, alookup_git_remove_dir_all_self]
    rfl
  · intro f
    simp only [strip_git_dir, List.mem_append, List.mem_map]
    constructor
    · rintro (hmem | ⟨g, hg, he⟩)
      · exact absurd hmem (not_mem_files_remove_dir_all w cd f)
      · have : g = f := by
          have := he
          rwa [List.append_right_inj] at this
        rwa [← this]
    · intro hf
      exact Or.inr ⟨f, hf, rfl⟩
  · simp only [RegistryStore.get]
    rw [alookup_amodify_self]
    rw [show alookup repo.localReg.index.references name = some r from hget]
    simp only [Option.map_some']
    refine ⟨_, rfl, ?_, ?_⟩
    · exact (refreshGitMeta_spec now _ r url gr sp hsrc).1
    · exact (refreshGitMeta_spec now _ r url gr sp hsrc).2

/-- C3 witness: the amended description instantiated on the concrete
fixture world. -/
theorem update_spec_witness :
    ∃ repo' w', RepositoryStore.update repoC3 wC3 remoteC3 7 "n" = Except.ok (repo', w')
      ∧ is_git_repo w' (repoC3.localReg.content_path "n") = false
      ∧ (∀ f, (repoC3.localReg.content_path "n" ++ f) ∈ w'.files ↔
          f ∈ [[PComp.normal "README.md"]])
      ∧ ∃ r', repo'.localReg.get "n" = some r'
          ∧ r'.last_synced = some 7
          ∧ r'.checksum =
              (match head_hash w' (repoC3.localReg.content_path "n") with
               | some hh => some hh
               | none => refC3.checksum) :=
  update_spec repoC3 wC3 remoteC3 7 "n" refC3 "u" none none "bbbb"
    [[PComp.normal "README.md"]] (by decide) (by decide) (by decide) (by decide)

/-! ## Synchronizer (src/cli/sync.rs)

External pieces are oracles: globset parsing (a glob string either fails to
parse or denotes a predicate on relative path strings), ref_exists and
git archive for version pins. -/

inductive SyncOutcome where
  | notFound
  | versionFailed (msg : String)
  | noContent
  | upToDate (hash : String)
  | copied (count : Nat)
  | copyFailed (msg : String)
deriving DecidableEq, Repr

def SyncOutcome.isSynced : SyncOutcome → Bool
  | SyncOutcome.upToDate _ => true
  | SyncOutcome.copied _ => true
  | _ => false

def SyncOutcome.isUpToDate : SyncOutcome → Bool
  | SyncOutcome.upToDate _ => true
  | _ => false

structure SyncEnv where
  globParse : String → Option (String → Bool)
  refExists : String → Bool
  archive : String → String → Option (List RPath)

/-- content_at_version from src/store/repository.rs: verify the ref,
clear the single .tmp-version-extract directory, extract there. -/
def content_at_version (env : SyncEnv) (repo : RepositoryStore) (w : World)
    (name version : String) : Except String RPath × World :=
  if !(env.refExists version) then
    (Except.error ("version \x27" ++ version ++
      "\x27 not found in registry (not a valid tag or commit)"), w)
  else
    let tmp := repo.root ++ [PComp.normal ".tmp-version-extract"]
    let w1 := if wExists w tmp then remove_dir_all w tmp else w
    match env.archive name version with
    | none => (Except.error ("failed to extract content at ref \x27" ++ version ++ "\x27"), w1)
    | some fs =>
      (Except.ok tmp,
       { w1 with dirs := tmp :: w1.dirs, files := w1.files ++ fs.map (fun f => tmp ++ f) })

def buildGlobSet (globParse : String → Option (String → Bool)) :
    List String → Option (List (String → Bool))
  | [] => some []
  | p :: t =>
    match globParse p, buildGlobSet globParse t with
    | some m, some ms => some (m :: ms)
    | _, _ => none

def relToString (p : RPath) : String :=
  String.intercalate "/"
    (p.map fun c =>
      match c with
      | PComp.normal s => s
      | PComp.parent => ".."
      | PComp.root => "")

/-- copy_reference from src/cli/sync.rs: file source is copied directly;
for a directory source every file under it is walked, the include set (when
nonempty) must match and the exclude set must not, and directories are only
created eagerly when there are no filters. -/
def copy_reference (globParse : String → Option (String → Bool)) (w : World)
    (source target : RPath) (entry : ManifestEntry) : Except String (World × Nat) :=
  if wFileExists w source then
    Except.ok ({ w with dirs := target.dropLast :: w.dirs, files := target :: w.files }, 1)
  else
    match
      (if entry.includeGlobs.isEmpty then some none
       else
         match buildGlobSet globParse entry.includeGlobs with
         | some ms => some (some ms)
         | none => none) with
    | none => Except.error "invalid include glob"
    | some inc =>
      match
        (if entry.excludeGlobs.isEmpty then some none
         else
           match buildGlobSet globParse entry.excludeGlobs with
           | some ms => some (some ms)
           | none => none) with
      | none => Except.error "invalid exclude glob"
      | some exc =>
        let hasFilters := inc.isSome || exc.isSome
        let rels :=
          w.files.filterMap
            (fun f =>
              if source.isPrefixOf f && f != source then some (f.drop source.length)
              else none)
        let kept :=
          rels.filter
            (fun rel =>
              (match inc with
               | some ms => ms.any (fun m => m (relToString rel))
               | none => true)
              && (match exc with
                  | some ms => !(ms.any (fun m => m (relToString rel)))
                  | none => true))
        let subdirs := if hasFilters then [] else w.dirs.filterMap (reTarget source target)
        Except.ok
          ({ w with
             dirs := target :: (w.dirs ++ subdirs)
             files := w.files ++ kept.map (fun rel => target ++ rel) },
           kept.length)

def headDef (w : World) (p : RPath) : String := (head_hash w p).getD ""

def cleanupTmp (w : World) : Option RPath → World
  | some t => remove_dir_all w t
  | none => w

def syncTarget (refsDir : RPath) (name : String) (entry : ManifestEntry) : RPath :=
  match entry.path with
  | some p => pjoin refsDir (parsePath p)
  | none => pjoin refsDir (parsePath name)

/-- Lines 84-127 of src/cli/sync.rs: the up-to-date skip, the target
replacement, the copy, and the versioned-extract cleanup. -/
def syncCopyPhase (env : SyncEnv) (w : World) (target source : RPath)
    (versionedTmp : Option RPath) (force : Bool) (name : String) (entry : ManifestEntry) :
    SyncOutcome × List String × World :=
  if wExists w target && !force && versionedTmp.isNone && is_git_repo w source &&
      is_git_repo w target && headDef w source == headDef w target &&
      headDef w source != "" then
    (SyncOutcome.upToDate (headDef w source),
     ["  " ++ name ++ ": up to date (" ++ (headDef w source).take 8 ++ ")"], w)
  else
    let w1 := if wExists w target then remove_dir_all w target else w
    match copy_reference env.globParse w1 source target entry with
    | Except.ok (w2, count) =>
      let suffixParts :=
        (if !entry.includeGlobs.isEmpty || !entry.excludeGlobs.isEmpty then
          [toString count ++ " files, filtered"]
         else []) ++
        (match entry.version with
         | some v => ["version: " ++ v]
         | none => [])
      let suffix :=
        if suffixParts.isEmpty then ""
        else " (" ++ String.intercalate ", " suffixParts ++ ")"
      (SyncOutcome.copied count, ["  " ++ name ++ ": synced" ++ suffix],
       cleanupTmp w2 versionedTmp)
    | Except.error e =>
      (SyncOutcome.copyFailed e, ["  " ++ name ++ ": FAILED - " ++ e],
       cleanupTmp w1 versionedTmp)

/-- One iteration of the sync loop (lines 41-127 of src/cli/sync.rs). -/
def syncEntry (env : SyncEnv) (repo : RepositoryStore) (w : World) (refsDir : RPath)
    (force : Bool) (name : String) (entry : ManifestEntry) :
    SyncOutcome × List String × World :=
  match RepositoryStore.get repo name with
  | none =>
    (SyncOutcome.notFound,
     ["warning: \x27" ++ name ++ "\x27 not found in central repository, skipping"], w)
  | some _ =>
    let target := syncTarget refsDir name entry
    match entry.version with
    | some v =>
      match content_at_version env repo w name v with
      | (Except.error e, w1) =>
        (SyncOutcome.versionFailed e, ["  " ++ name ++ ": FAILED - " ++ e], w1)
      | (Except.ok src, w1) => syncCopyPhase env w1 target src (some src) force name entry
    | none =>
      match RepositoryStore.resolve_content_path repo name with
      | some p =>
        if wExists w p then syncCopyPhase env w target p none force name entry
        else
          (SyncOutcome.noContent,
           ["warning: no cached content for \x27" ++ name ++ "\x27, skipping"], w)
      | none =>
        (SyncOutcome.noContent,
         ["warning: no cached content for \x27" ++ name ++ "\x27, skipping"], w)

/-- The sync loop over the resolved entries: outcomes, log lines, synced
count, failed count, final world. -/
def syncLoop (env : SyncEnv) (repo : RepositoryStore) (refsDir : RPath) (force : Bool) :
    World → List (String × ManifestEntry) →
      List SyncOutcome × List String × Nat × Nat × World
  | w, [] => ([], [], 0, 0, w)
  | w, (n, e) :: rest =>
    let r := syncEntry env repo w refsDir force n e
    let t := syncLoop env repo refsDir force r.2.2 rest
    (r.1 :: t.1, r.2.1 ++ t.2.1,
     (if r.1.isSynced then t.2.2.1 + 1 else t.2.2.1),
     (if r.1.isSynced then t.2.2.2.1 else t.2.2.2.1 + 1),
     t.2.2.2.2)

/-- Lines 33-130 of src/cli/sync.rs: early return on an empty entry set,
otherwise the loop followed by the summary line. -/
def sync_run (env : SyncEnv) (repo : RepositoryStore) (refsDir : RPath) (force : Bool)
    (w : World) (entries : List (String × ManifestEntry)) :
    List SyncOutcome × List String × Nat × Nat × World :=
  if entries.isEmpty then
    ([], ["No references in manifest. Add some with `refstore add`."], 0, 0, w)
  else
    let t := syncLoop env repo refsDir force w entries
    (t.1,
     t.2.1 ++
       ["\nSync complete: " ++ toString t.2.2.1 ++ " synced, " ++
         toString t.2.2.2.1 ++ " failed"],
     t.2.2.1, t.2.2.2.1, t.2.2.2.2)

theorem head_hash_of_git_self (w : World) (p : RPath) (h : String)
    (hg : alookup w.git p = some (some h)) : head_hash w p = some h := by
  simp [head_hash, headHashAux, hg]

/-- C6: with no version pin and no force, an existing target where source
and target are both git repositories with the same non-empty head makes
sync log the entry as up to date, count it as synced, and leave the world
untouched (nothing is copied or deleted). -/
theorem sync_up_to_date_skip (env : SyncEnv) (repo : RepositoryStore) (w : World)
    (refsDir : RPath) (name : String) (entry : ManifestEntry) (src : RPath) (h : String)
    (hver : entry.version = none)
    (hget : (RepositoryStore.get repo name).isSome)
    (hpath : RepositoryStore.resolve_content_path repo name = some src)
    (hsrcex : wExists w src = true)
    (htar : wExists w (syncTarget refsDir name entry) = true)
    (hsg : alookup w.git src = some (some h))
    (htg : alookup w.git (syncTarget refsDir name entry) = some (some h))
    (hne : h ≠ "") :
    syncEntry env repo w refsDir false name entry =
      (SyncOutcome.upToDate h,
       ["  " ++ name ++ ": up to date (" ++ h.take 8 ++ ")"], w)
    ∧ (SyncOutcome.upToDate h).isSynced = true := by
  obtain ⟨r, hr⟩ := Option.isSome_iff_exists.mp hget
  have hhs : headDef w src = h := by
    simp [headDef, head_hash_of_git_self w src h hsg]
  have hht : headDef w (syncTarget refsDir name entry) = h := by
    simp [headDef, head_hash_of_git_self _ _ _ htg]
  refine ⟨?_, rfl⟩
  simp only [syncEntry, hr, hver, hpath, hsrcex, if_true]
  simp only [syncCopyPhase, htar, hhs, hht, is_git_repo, hsg, htg]
  simp [hne]

/-! C6 scenario fixtures: add a git-sourced reference, sync, sync again. -/

def refC6 : Reference :=
  ⟨"g", ReferenceKind.gitRepo, ReferenceSource.git "u" none none, none, [], 0, none, none⟩

def remoteC6 : RemoteOracle := fun url =>
  if url = "u" then some ("cafe1234", [[PComp.normal "README.md"]]) else none

def envC6 : SyncEnv := ⟨fun _ => none, fun _ => false, fun _ _ => none⟩

def projRoot : RPath := [PComp.root, PComp.normal "proj"]

def refsDirC6 : RPath := projRoot ++ [PComp.normal ".references"]

def repoC6a : RepositoryStore :=
  { root := dataRoot
    localReg := { root := dataRoot, index := ⟨1, [], []⟩ }
    remotes := []
    config := ⟨1⟩ }

def w6a : World :=
  { dirs := [dataRoot, dataRoot ++ [PComp.normal "content"], projRoot, refsDirC6]
    files := []
    git := [(dataRoot, some "aaaa")] }

def cdC6 : RPath := dataRoot ++ [PComp.normal "content", PComp.normal "g"]

def repoC6b : RepositoryStore :=
  { repoC6a with localReg := { repoC6a.localReg with index := ⟨1, [("g", refC6)], []⟩ } }

def w6b : World :=
  { dirs := cdC6 :: w6a.dirs
    files := [cdC6 ++ [PComp.normal "README.md"]]
    git := [(dataRoot, some "aaaa")] }

def sync1C6 : SyncOutcome × List String × World :=
  syncEntry envC6 repoC6b w6b refsDirC6 false "g" ManifestEntry.default

def sync2C6 : SyncOutcome × List String × World :=
  syncEntry envC6 repoC6b sync1C6.2.2 refsDirC6 false "g" ManifestEntry.default

/-- C6 counterexample: adding a git-sourced reference strips its .git, so
after a first sync the second sync without force does not take the
up-to-date path; it performs a full re-copy instead. -/
theorem sync_second_run_counterexample :
    (RepositoryStore.add repoC6a w6a remoteC6 refC6).toOption = some (repoC6b, w6b)
    ∧ sync1C6.1 = SyncOutcome.copied 1
    ∧ sync2C6.1 = SyncOutcome.copied 1
    ∧ sync2C6.1.isUpToDate = false := by
  refine ⟨?_, ?_, ?_, ?_⟩ <;> decide

/-! C6 witness fixture: a world where both the content directory and the
target still contain a .git with the same head (e.g. populated outside
the fetch path). -/

def wC6w : World :=
  { dirs :=
      [dataRoot, dataRoot ++ [PComp.normal "content"], cdC6, projRoot, refsDirC6,
       refsDirC6 ++ [PComp.normal "g"]]
    files := []
    git := [(cdC6, some "cafe1234"), (refsDirC6 ++ [PComp.normal "g"], some "cafe1234")] }

/-- C6 witness: the up-to-date skip fires on the concrete git-to-git world
and leaves it unchanged. -/
theorem sync_up_to_date_witness :
    syncEntry envC6 repoC6b wC6w refsDirC6 false "g" ManifestEntry.default =
      (SyncOutcome.upToDate "cafe1234",
       ["  " ++ "g" ++ ": up to date (" ++ ("cafe1234" : String).take 8 ++ ")"], wC6w)
    ∧ (SyncOutcome.upToDate "cafe1234").isSynced = true :=
  sync_up_to_date_skip envC6 repoC6b wC6w refsDirC6 "g" ManifestEntry.default cdC6
    "cafe1234" (by decide) (by decide) (by decide) (by decide) (by decide)
    (by decide) (by decide) (by decide)

/-! ## C7: the loop never aborts, counts each entry once, summarises -/

theorem syncCopyPhase_one_line (env : SyncEnv) (w : World) (target source : RPath)
    (vt : Option RPath) (force : Bool) (name : String) (entry : ManifestEntry) :
    (syncCopyPhase env w target source vt force name entry).2.1.length = 1 := by
  unfold syncCopyPhase
  split
  · rfl
  · rcases hc : copy_reference env.globParse
        (if wExists w target then remove_dir_all w target else w) source target entry with
      e | p
    · simp [hc]
    · obtain ⟨w2, c⟩ := p
      simp [hc]

theorem syncEntry_one_line (env : SyncEnv) (repo : RepositoryStore) (w : World)
    (refsDir : RPath) (force : Bool) (n : String) (e : ManifestEntry) :
    (syncEntry env repo w refsDir force n e).2.1.length = 1 := by
  unfold syncEntry
  cases hg : RepositoryStore.get repo n with
  | none => rfl
  | some r =>
    cases hv : e.version with
    | some v =>
      rcases hc : content_at_version env repo w n v with ⟨exc, w1⟩
      cases exc with
      | error msg => simp [hc]
      | ok src => simp [hc, syncCopyPhase_one_line]
    | none =>
      cases hp : RepositoryStore.resolve_content_path repo n with
      | none => rfl
      | some p =>
        by_cases hex : wExists w p = true
        · simp [hp, hex, syncCopyPhase_one_line]
        · simp only [Bool.not_eq_true] at hex
          simp [hp, hex]

theorem filter_bool_partition_length {α : Type} (p : α → Bool) (l : List α) :
    (l.filter p).length + (l.filter (fun a => !(p a))).length = l.length := by
  induction l with
  | nil => rfl
  | cons a t ih =>
    by_cases h : p a <;> simp [List.filter_cons, h, ← ih] <;> omega

theorem syncLoop_spec (env : SyncEnv) (repo : RepositoryStore) (refsDir : RPath)
    (force : Bool) (entries : List (String × ManifestEntry)) : ∀ (w : World),
    (syncLoop env repo refsDir force w entries).1.length = entries.length
    ∧ (syncLoop env repo refsDir force w entries).2.1.length = entries.length
    ∧ (syncLoop env repo refsDir force w entries).2.2.1 =
        ((syncLoop env repo refsDir force w entries).1.filter
          (fun o => o.isSynced)).length
    ∧ (syncLoop env repo refsDir force w entries).2.2.2.1 =
        ((syncLoop env repo refsDir force w entries).1.filter
          (fun o => !(o.isSynced))).length := by
  induction entries with
  | nil => intro w; simp [syncLoop]
  | cons q rest ih =>
    intro w
    obtain ⟨n, e⟩ := q
    obtain ⟨h1, h2, h3, h4⟩ := ih (syncEntry env repo w refsDir force n e).2.2
    refine ⟨?_, ?_, ?_, ?_⟩
    · simp [syncLoop, h1]
    · simp [syncLoop, List.length_append, syncEntry_one_line, h2]
      omega
    · by_cases hs : (syncEntry env repo w refsDir force n e).1.isSynced = true
      · simp [syncLoop, List.filter_cons, hs, h3]
      · simp only [Bool.not_eq_true] at hs
        simp [syncLoop, List.filter_cons, hs, h3]
    · by_cases hs : (syncEntry env repo w refsDir force n e).1.isSynced = true
      · simp [syncLoop, List.filter_cons, hs, h4]
      · simp only [Bool.not_eq_true] at hs
        simp [syncLoop, List.filter_cons, hs, h4]

/-- C7 (amended): over a nonempty set of resolved entries the sync loop
processes every entry (one outcome and exactly one log line per entry,
failures included), counts each entry exactly once as synced or failed,
and ends with the summary line; an empty entry set short-circuits before
the loop with a no-references notice and no summary. -/
theorem sync_loop_counts (env : SyncEnv) (repo : RepositoryStore) (refsDir : RPath)
    (force : Bool) (w : World) (entries : List (String × ManifestEntry))
    (hne : entries ≠ []) :
    (sync_run env repo refsDir force w entries).1.length = entries.length
    ∧ (sync_run env repo refsDir force w entries).2.2.1 +
        (sync_run env repo refsDir force w entries).2.2.2.1 = entries.length
    ∧ (sync_run env repo refsDir force w entries).2.2.1 =
        ((sync_run env repo refsDir force w entries).1.filter
          (fun o => o.isSynced)).length
    ∧ (sync_run env repo refsDir force w entries).2.2.2.1 =
        ((sync_run env repo refsDir force w entries).1.filter
          (fun o => !(o.isSynced))).length
    ∧ (sync_run env repo refsDir force w entries).2.1.length = entries.length + 1
    ∧ (sync_run env repo refsDir force w entries).2.1.getLast? =
        some ("\nSync complete: " ++
          toString (sync_run env repo refsDir force w entries).2.2.1 ++ " synced, " ++
          toString (sync_run env repo refsDir force w entries).2.2.2.1 ++ " failed") := by
  have hemp : entries.isEmpty = false := by
    cases entries with
    | nil => exact absurd rfl hne
    | cons q t => rfl
  obtain ⟨h1, h2, h3, h4⟩ := syncLoop_spec env repo refsDir force entries w
  simp only [sync_run, hemp, Bool.false_eq_true, if_false]
  refine ⟨h1, ?_, h3, h4, ?_, ?_⟩
  · rw [h3, h4, ← h1]
    exact filter_bool_partition_length _ _
  · simp [List.length_append, h2]
  · rw [List.getLast?_append]
    rfl

/-! C7 fixtures: one entry that syncs, one entry missing everywhere. -/

def entriesC7 : List (String × ManifestEntry) :=
  [("g", ManifestEntry.default), ("missing", ManifestEntry.default)]

/-- C7 witness: on the two-entry fixture (one syncable, one unknown) the
run ends with the summary built from its own counters. -/
theorem sync_loop_counts_witness :
    (sync_run envC6 repoC6b refsDirC6 false w6b entriesC7).2.1.getLast? =
      some ("\nSync complete: " ++
        toString (sync_run envC6 repoC6b refsDirC6 false w6b entriesC7).2.2.1 ++
        " synced, " ++
        toString (sync_run envC6 repoC6b refsDirC6 false w6b entriesC7).2.2.2.1 ++
        " failed") :=
  (sync_loop_counts envC6 repoC6b refsDirC6 false w6b entriesC7
    (by decide)).2.2.2.2.2

/-- C7 counterexample: a sync over the empty entry set ends with the
no-references notice, not with the summary line the claim promises for
every set of entries. -/
theorem sync_empty_no_summary :
    (sync_run envC6 repoC6b refsDirC6 false w6b []).2.1 =
      ["No references in manifest. Add some with `refstore add`."]
    ∧ (sync_run envC6 repoC6b refsDirC6 false w6b []).2.1.getLast? ≠
        some "\nSync complete: 0 synced, 0 failed" := by
  refine ⟨?_, ?_⟩ <;> decide

/-! ## C2: resolve_all_references (spec-modelled)

ProjectStore::resolve_all_references is not under src/ (only its callers
in cli/sync.rs and cli/status.rs are), so it is modelled from spec 4.5. -/

/-- Modelled from the spec: merging one bundle contribution list into the
accumulated map; a member name is inserted with a default entry only when
the map does not already bind it (explicit entries and earlier bundles
win). -/
def addMembers : List String → List (String × ManifestEntry) → List (String × ManifestEntry)
  | [], acc => acc
  | r :: rest, acc =>
    addMembers rest
      (if (alookup acc r).isSome then acc else ainsert r ManifestEntry.default acc)

/-- Modelled from the spec: expand the manifest bundle names in order
against repo.get_bundle, merging member contributions into the map. -/
def expandBundles (repo : RepositoryStore) :
    List String → List (String × ManifestEntry) →
      Except String (List (String × ManifestEntry))
  | [], acc => Except.ok acc
  | b :: rest, acc =>
    match repo.get_bundle b with
    | none => Except.error ("bundle not found: " ++ b)
    | some bl => expandBundles repo rest (addMembers bl.references acc)

/-- Modelled from the spec: ProjectStore::resolve_all_references, absent
from src/.  Spec 4.5: expands manifest bundle names against
repo.get_bundle(), merging into the explicit entries map; explicit entries
win over bundle-contributed ones, bundle collisions pick the first listed
bundle, and each bundle-contributed entry is a default. -/
def resolve_all_references (m : Manifest) (repo : RepositoryStore) :
    Except String (List (String × ManifestEntry)) :=
  expandBundles repo m.bundles m.references

theorem addMembers_preserves (l : List String) (acc : List (String × ManifestEntry))
    (n : String) (v : ManifestEntry) (h : alookup acc n = some v) :
    alookup (addMembers l acc) n = some v := by
  induction l generalizing acc with
  | nil => exact h
  | cons r rest ih =>
    simp only [addMembers]
    by_cases hr : (alookup acc r).isSome
    · rw [if_pos hr]
      exact ih acc h
    · rw [if_neg hr]
      apply ih
      by_cases hn : n = r
      · subst hn
        rw [h] at hr
        simp at hr
      · rw [alookup_ainsert_ne r n ManifestEntry.default acc hn]
        exact h

theorem addMembers_mem (l : List String) (acc : List (String × ManifestEntry))
    (n : String) (h : alookup acc n = none) (hm : n ∈ l) :
    alookup (addMembers l acc) n = some ManifestEntry.default := by
  induction l generalizing acc with
  | nil => cases hm
  | cons r rest ih =>
    simp only [addMembers]
    by_cases hn : n = r
    · subst hn
      have hr : ¬ (alookup acc n).isSome = true := by rw [h]; simp
      rw [if_neg hr]
      exact addMembers_preserves rest _ n ManifestEntry.default
        (alookup_ainsert_self n ManifestEntry.default acc)
    · have hm2 : n ∈ rest := by
        rcases List.mem_cons.mp hm with he | ht
        · exact absurd he hn
        · exact ht
      by_cases hr : (alookup acc r).isSome
      · rw [if_pos hr]
        exact ih acc h hm2
      · rw [if_neg hr]
        apply ih
        · rw [alookup_ainsert_ne r n ManifestEntry.default acc hn]
          exact h
        · exact hm2

theorem addMembers_not_mem (l : List String) (acc : List (String × ManifestEntry))
    (n : String) (h : alookup acc n = none) (hm : n ∉ l) :
    alookup (addMembers l acc) n = none := by
  induction l generalizing acc with
  | nil => exact h
  | cons r rest ih =>
    have hn : n ≠ r := fun he => hm (he ▸ List.mem_cons_self r rest)
    have hm2 : n ∉ rest := fun ht => hm (List.mem_cons_of_mem r ht)
    simp only [addMembers]
    by_cases hr : (alookup acc r).isSome
    · rw [if_pos hr]
      exact ih acc h hm2
    · rw [if_neg hr]
      apply ih
      · rw [alookup_ainsert_ne r n ManifestEntry.default acc hn]
        exact h
      · exact hm2

theorem expandBundles_spec (repo : RepositoryStore) (l : List String)
    (acc : List (String × ManifestEntry))
    (hall : ∀ b ∈ l, (repo.get_bundle b).isSome) :
    ∃ out, expandBundles repo l acc = Except.ok out
      ∧ (∀ n v, alookup acc n = some v → alookup out n = some v)
      ∧ (∀ n, alookup acc n = none →
          ((∃ b ∈ l, ∃ bl, repo.get_bundle b = some bl ∧ n ∈ bl.references) →
            alookup out n = some ManifestEntry.default)
          ∧ (¬ (∃ b ∈ l, ∃ bl, repo.get_bundle b = some bl ∧ n ∈ bl.references) →
            alookup out n = none)) := by
  induction l generalizing acc with
  | nil =>
    refine ⟨acc, rfl, fun n v h => h, fun n h => ⟨?_, fun _ => h⟩⟩
    rintro ⟨b, hb, -⟩
    cases hb
  | cons b rest ih =>
    obtain ⟨bl, hbl⟩ := Option.isSome_iff_exists.mp (hall b (List.mem_cons_self b rest))
    obtain ⟨out, hout, hpres, hnew⟩ :=
      ih (addMembers bl.references acc) (fun x hx => hall x (List.mem_cons_of_mem b hx))
    refine ⟨out, ?_, ?_, ?_⟩
    · simp only [expandBundles, hbl]
      exact hout
    · intro n v h
      exact hpres n v (addMembers_preserves bl.references acc n v h)
    · intro n h
      by_cases hm : n ∈ bl.references
      · have hacc : alookup (addMembers bl.references acc) n = some ManifestEntry.default :=
          addMembers_mem bl.references acc n h hm
        refine ⟨fun _ => hpres n _ hacc, fun hno => ?_⟩
        exact absurd ⟨b, List.mem_cons_self b rest, bl, hbl, hm⟩ hno
      · have hacc : alookup (addMembers bl.references acc) n = none :=
          addMembers_not_mem bl.references acc n h hm
        obtain ⟨hmem, hnone⟩ := hnew n hacc
        constructor
        · rintro ⟨b2, hb2, bl2, hbl2, hm2⟩
          rcases List.mem_cons.mp hb2 with rfl | hrest
          · rw [hbl] at hbl2
            cases hbl2
            exact absurd hm2 hm
          · exact hmem ⟨b2, hrest, bl2, hbl2, hm2⟩
        · intro hno
          apply hnone
          rintro ⟨b2, hb2, bl2, hbl2, hm2⟩
          exact hno ⟨b2, List.mem_cons_of_mem b hb2, bl2, hbl2, hm2⟩

/-- C2: resolve_all_references (spec-modelled) expands each manifest bundle
name via repo.get_bundle, merging into the explicit entries: an explicit
entry always wins; a name contributed only by bundles is bound to the
default entry (no path override, no version pin, empty globs); names bound
by no explicit entry and no listed bundle are absent.  Collisions between
bundles are value-invisible because every contribution is the same default
entry; the model inserts first-bundle-first. -/
theorem resolve_all_references_merge (m : Manifest) (repo : RepositoryStore)
    (hall : ∀ b ∈ m.bundles, (repo.get_bundle b).isSome) :
    ∃ out, resolve_all_references m repo = Except.ok out
      ∧ (∀ n v, alookup m.references n = some v → alookup out n = some v)
      ∧ (∀ n, alookup m.references n = none →
          ((∃ b ∈ m.bundles, ∃ bl, repo.get_bundle b = some bl ∧ n ∈ bl.references) →
            alookup out n = some ManifestEntry.default)
          ∧ (¬ (∃ b ∈ m.bundles, ∃ bl, repo.get_bundle b = some bl ∧ n ∈ bl.references) →
            alookup out n = none)) :=
  expandBundles_spec repo m.bundles m.references hall

/-! C2 witness fixture: one explicit entry and one bundle contributing an
overlapping and a fresh name. -/

def entryC2 : ManifestEntry := ⟨some "dir", none, [], []⟩

def mC2 : Manifest := ⟨1, true, [("a", entryC2)], ["st"]⟩

def bundleC2 : Bundle := ⟨"st", none, [], ["a", "b"], 0⟩

def repoC2 : RepositoryStore :=
  { root := dataRoot
    localReg := { root := dataRoot, index := ⟨1, [], [("st", bundleC2)]⟩ }
    remotes := []
    config := ⟨1⟩ }

/-- C2 witness: the merge speciality instantiated on the concrete manifest
whose bundle overlaps one explicit name. -/
theorem resolve_all_references_witness :
    ∃ out, resolve_all_references mC2 repoC2 = Except.ok out
      ∧ (∀ n v, alookup mC2.references n = some v → alookup out n = some v)
      ∧ (∀ n, alookup mC2.references n = none →
          ((∃ b ∈ mC2.bundles, ∃ bl, repoC2.get_bundle b = some bl ∧ n ∈ bl.references) →
            alookup out n = some ManifestEntry.default)
          ∧ (¬ (∃ b ∈ mC2.bundles, ∃ bl, repoC2.get_bundle b = some bl ∧ n ∈ bl.references) →
            alookup out n = none)) :=
  resolve_all_references_merge mC2 repoC2 (by decide)

/-! ## C8: list filters, dedup, ordering -/

theorem mem_remoteDedup (xs : List Reference) : ∀ (seen : List String) (r : Reference),
    r ∈ remoteDedup seen xs → r ∈ xs := by
  induction xs with
  | nil => intro seen r h; cases h
  | cons q t ih =>
    intro seen r h
    simp only [remoteDedup] at h
    by_cases hq : q.name ∈ seen
    · rw [if_pos hq] at h
      exact List.mem_cons_of_mem q (ih seen r h)
    · rw [if_neg hq] at h
      rcases List.mem_cons.mp h with rfl | hm
      · exact List.mem_cons_self _ _
      · exact List.mem_cons_of_mem q (ih _ r hm)

theorem remoteDedup_names (xs : List Reference) : ∀ (seen : List String),
    ((remoteDedup seen xs).map (fun r => r.name)).Nodup
    ∧ ∀ a, a ∈ (remoteDedup seen xs).map (fun r => r.name) →
        a ∈ xs.map (fun r => r.name) ∧ a ∉ seen := by
  induction xs with
  | nil => intro seen; simp [remoteDedup]
  | cons q t ih =>
    intro seen
    simp only [remoteDedup]
    by_cases hq : q.name ∈ seen
    · rw [if_pos hq]
      obtain ⟨hnd, hmem⟩ := ih seen
      refine ⟨hnd, fun a ha => ?_⟩
      obtain ⟨h1, h2⟩ := hmem a ha
      exact ⟨List.mem_cons_of_mem _ h1, h2⟩
    · rw [if_neg hq]
      obtain ⟨hnd, hmem⟩ := ih (q.name :: seen)
      constructor
      · simp only [List.map_cons, List.nodup_cons]
        refine ⟨fun hc => ?_, hnd⟩
        exact (hmem q.name hc).2 (List.mem_cons_self _ _)
      · intro a ha
        simp only [List.map_cons, List.mem_cons] at ha
        rcases ha with rfl | ha
        · exact ⟨List.mem_cons_self _ _, hq⟩
        · obtain ⟨h1, h2⟩ := hmem a ha
          have : a ∉ seen := fun hs => h2 (List.mem_cons_of_mem _ hs)
          exact ⟨List.mem_cons_of_mem _ h1, this⟩

theorem registry_list_names_nodup (s : RegistryStore) (tag kind : Option String)
    (hkeys : (akeys s.index.references).Nodup)
    (hnames : ∀ p ∈ s.index.references, p.2.name = p.1) :
    ((s.list tag kind).map (fun r => r.name)).Nodup := by
  have hv : (avalues s.index.references).map (fun r => r.name) = akeys s.index.references := by
    simp only [avalues, akeys, List.map_map]
    exact List.map_congr_left (fun p hp => hnames p hp)
  have hsub : List.Sublist ((s.list tag kind).map (fun r => r.name))
      ((avalues s.index.references).map (fun r => r.name)) :=
    List.Sublist.map _ (List.filter_sublist _)
  rw [hv] at hsub
  exact hkeys.sublist hsub

theorem flat_mem (remotes : List (String × RegistryStore)) (tag kind : Option String)
    (r : Reference) :
    r ∈ (remotes.map (fun p => p.2.list tag kind)).flatten ↔
      ∃ p ∈ remotes, r ∈ p.2.list tag kind := by
  simp only [List.mem_flatten, List.mem_map]
  constructor
  · rintro ⟨l, ⟨p, hp, rfl⟩, hr⟩
    exact ⟨p, hp, hr⟩
  · rintro ⟨p, hp, hr⟩
    exact ⟨p.2.list tag kind, ⟨p, hp, rfl⟩, hr⟩

/-- C8 (amended): every element of list(tag, kind) satisfies both filters;
at the single-registry level list(tag, kind) is a subset of
list(None, None); at the repository level the NAME set of list(tag, kind)
is a subset of that of list(None, None) (the element sequence need not be,
since a tag filter can unshadow a remote reference); the repository list
has pairwise distinct names, lists local entries first, and a non-local
element only appears when no local entry carries its name. -/
theorem list_filters_spec (repo : RepositoryStore) (tag kind : Option String)
    (hkeys : (akeys repo.localReg.index.references).Nodup)
    (hnames : ∀ p ∈ repo.localReg.index.references, p.2.name = p.1) :
    (∀ r ∈ repo.list tag kind, refMatches tag kind r = true)
    ∧ (∀ s : RegistryStore, ∀ r ∈ s.list tag kind, r ∈ s.list none none)
    ∧ (∀ r ∈ repo.list tag kind, ∃ q ∈ repo.list none none, q.name = r.name)
    ∧ ((repo.list tag kind).map (fun r => r.name)).Nodup
    ∧ (∃ rest, repo.list tag kind = repo.localReg.list tag kind ++ rest
        ∧ ∀ r ∈ rest,
            r.name ∉ (repo.localReg.list tag kind).map (fun q => q.name)
            ∧ ∃ p ∈ repo.remotes, r ∈ p.2.list tag kind) := by
  refine ⟨?_, ?_, ?_, ?_, ?_⟩
  · intro r hr
    simp only [RepositoryStore.list, List.mem_append] at hr
    rcases hr with hl | hd
    · exact (List.mem_filter.mp hl).2
    · have := mem_remoteDedup _ _ r hd
      rcases (flat_mem repo.remotes tag kind r).mp this with ⟨p, hp, hpl⟩
      exact (List.mem_filter.mp hpl).2
  · intro s r hr
    rcases List.mem_filter.mp hr with ⟨hm, _⟩
    refine List.mem_filter.mpr ⟨hm, ?_⟩
    rfl
  · intro r hr
    simp only [RepositoryStore.list, List.mem_append] at hr
    have hfull : ∀ a, a ∈ (repo.localReg.list none none).map (fun q => q.name) ∨
        a ∈ ((repo.remotes.map (fun p => p.2.list none none)).flatten).map
          (fun q => q.name) →
        ∃ q ∈ repo.list none none, q.name = a := by
      intro a ha
      by_cases hloc : a ∈ (repo.localReg.list none none).map (fun q => q.name)
      · rcases List.mem_map.mp hloc with ⟨q, hq, hqa⟩
        exact ⟨q, by simp [RepositoryStore.list, List.mem_append, hq], hqa⟩
      · rcases ha with hl | hf
        · exact absurd hl hloc
        · rcases List.mem_map.mp hf with ⟨q, hq, hqa⟩
          -- q has unseen name: some element of the dedup carries name a
          have : a ∈ ((remoteDedup ((repo.localReg.list none none).map (fun x => x.name))
              ((repo.remotes.map (fun p => p.2.list none none)).flatten)).map
                (fun x => x.name)) ∨
              a ∉ ((remoteDedup ((repo.localReg.list none none).map (fun x => x.name))
              ((repo.remotes.map (fun p => p.2.list none none)).flatten)).map
                (fun x => x.name)) := em _
          rcases this with hin | hout
          · rcases List.mem_map.mp hin with ⟨q2, hq2, hq2a⟩
            exact ⟨q2, by
              simp only [RepositoryStore.list, List.mem_append]
              exact Or.inr hq2, hq2a⟩
          · exfalso
            apply hout
            -- names in the dedup are exactly flat names minus local names
            clear hout
            rw [← hqa] at hloc ⊢
            have hqf : q.name ∈ ((repo.remotes.map (fun p => p.2.list none none)).flatten).map
                (fun x => x.name) := List.mem_map.mpr ⟨q, hq, rfl⟩
            -- induction characterisation
            revert hqf hloc
            generalize ((repo.remotes.map (fun p => p.2.list none none)).flatten) = xs
            generalize ((repo.localReg.list none none).map (fun x => x.name)) = seen
            intro hloc hqf
            induction xs generalizing seen with
            | nil => simp at hqf
            | cons y t ihx =>
              simp only [List.map_cons, List.mem_cons] at hqf
              simp only [remoteDedup]
              by_cases hy : y.name ∈ seen
              · rw [if_pos hy]
                rcases hqf with he | ht
                · exact absurd (he ▸ hy) hloc
                · exact ihx seen hloc ht
              · rw [if_neg hy]
                rcases hqf with he | ht
                · simp [he]
                · by_cases hqy : q.name = y.name
                  · simp [hqy]
                  · have := ihx (y.name :: seen)
                      (by simp only [List.mem_cons]; rintro (h | h);
                          exact hqy h; exact hloc h) ht
                    simp only [List.map_cons, List.mem_cons]
                    exact Or.inr this
    rcases hr with hl | hd
    · -- element from the filtered local list
      have hm : r ∈ avalues repo.localReg.index.references := (List.mem_filter.mp hl).1
      have : r.name ∈ (repo.localReg.list none none).map (fun q => q.name) := by
        refine List.mem_map.mpr ⟨r, ?_, rfl⟩
        exact List.mem_filter.mpr ⟨hm, rfl⟩
      exact hfull r.name (Or.inl this)
    · have hx := mem_remoteDedup _ _ r hd
      rcases (flat_mem repo.remotes tag kind r).mp hx with ⟨p, hp, hpl⟩
      have hm : r ∈ avalues p.2.index.references := (List.mem_filter.mp hpl).1
      have hnn : r ∈ p.2.list none none := List.mem_filter.mpr ⟨hm, rfl⟩
      have : r.name ∈ ((repo.remotes.map (fun q => q.2.list none none)).flatten).map
          (fun x => x.name) := by
        refine List.mem_map.mpr ⟨r, ?_, rfl⟩
        exact (flat_mem repo.remotes none none r).mpr ⟨p, hp, hnn⟩
      exact hfull r.name (Or.inr this)
  · simp only [RepositoryStore.list, List.map_append]
    apply List.Nodup.append
    · exact registry_list_names_nodup repo.localReg tag kind hkeys hnames
    · exact (remoteDedup_names _ _).1
    · intro a ha hb
      exact ((remoteDedup_names _ _).2 a hb).2 ha
  · refine ⟨_, rfl, ?_⟩
    intro r hr
    constructor
    · intro hc
      have : r.name ∈ (remoteDedup ((repo.localReg.list tag kind).map (fun x => x.name))
          ((repo.remotes.map (fun p => p.2.list tag kind)).flatten)).map
            (fun x => x.name) := List.mem_map.mpr ⟨r, hr, rfl⟩
      exact ((remoteDedup_names _ _).2 r.name this).2 hc
    · exact (flat_mem repo.remotes tag kind r).mp (mem_remoteDedup _ _ r hr)

/-! C8 counterexample fixture: a tag filter unshadows a remote reference. -/

def refX : Reference :=
  ⟨"x", ReferenceKind.file, ReferenceSource.localSrc [PComp.root, PComp.normal "p"],
   none, [], 0, none, none⟩

def refXr : Reference :=
  ⟨"x", ReferenceKind.file, ReferenceSource.localSrc [PComp.root, PComp.normal "q"],
   none, ["t"], 0, none, none⟩

def repoC8 : RepositoryStore :=
  { root := dataRoot
    localReg := { root := dataRoot, index := ⟨1, [("x", refX)], []⟩ }
    remotes :=
      [("r",
        { root := dataRoot ++ [PComp.normal "registries", PComp.normal "r"]
          index := ⟨1, [("x", refXr)], []⟩ })]
    config := ⟨1⟩ }

/-- C8 counterexample: with a local untagged x shadowing a remote tagged x,
list(t, None) returns the remote reference while list(None, None) returns
only the local one, so the filtered list is not a subset of the unfiltered
list at the Repository level. -/
theorem list_subset_counterexample :
    RepositoryStore.list repoC8 (some "t") none = [refXr]
    ∧ RepositoryStore.list repoC8 none none = [refX]
    ∧ refXr ∈ RepositoryStore.list repoC8 (some "t") none
    ∧ refXr ∉ RepositoryStore.list repoC8 none none := by
  refine ⟨?_, ?_, ?_, ?_⟩ <;> decide

/-- C8 witness: the amended list properties instantiated on the concrete
shadowed repository; the name-level subset and distinctness hold there. -/
theorem list_filters_witness :
    ((RepositoryStore.list repoC8 (some "t") none).map (fun r => r.name)).Nodup ∧
    (∀ r ∈ RepositoryStore.list repoC8 (some "t") none,
      ∃ q ∈ RepositoryStore.list repoC8 none none, q.name = r.name) := by
  have h := list_filters_spec repoC8 (some "t") none (by decide) (by decide)
  exact ⟨h.2.2.2.1, h.2.2.1⟩

/-! ## C9: manifest TOML round trip

The toml crate is modelled at the serde data-model level: serialisation
produces a TOML value tree following the derive attributes on Manifest and
ManifestEntry (skip_serializing_if on the options and the glob lists,
defaults on load), deserialisation reads it back; the text layer of the
external toml crate is assumed faithful to that value tree.  The bundles
field of Manifest is the spec-modelled field (see Manifest above). -/

inductive Toml where
  | str (s : String)
  | int (n : Int)
  | bool (b : Bool)
  | arr (xs : List Toml)
  | table (kvs : List (String × Toml))

/-- Serialisation of ManifestEntry: path and version are omitted when
None, include and exclude when empty. -/
def ser_manifest_entry (e : ManifestEntry) : Toml :=
  Toml.table
    ((match e.path with
      | some p => [("path", Toml.str p)]
      | none => []) ++
     (match e.version with
      | some v => [("version", Toml.str v)]
      | none => []) ++
     (if e.includeGlobs.isEmpty then []
      else [("include", Toml.arr (e.includeGlobs.map Toml.str))]) ++
     (if e.excludeGlobs.isEmpty then []
      else [("exclude", Toml.arr (e.excludeGlobs.map Toml.str))]))

/-- Serialisation of Manifest: version, gitignore_references, the
reference map in its (sorted) order, and the bundle name list. -/
def ser_manifest (m : Manifest) : Toml :=
  Toml.table
    [("version", Toml.int (Int.ofNat m.version)),
     ("gitignore_references", Toml.bool m.gitignore_references),
     ("references", Toml.table (m.references.map (fun p => (p.1, ser_manifest_entry p.2)))),
     ("bundles", Toml.arr (m.bundles.map Toml.str))]

def deStr : Toml → Option String
  | Toml.str s => some s
  | _ => none

def deStrList : List Toml → Option (List String)
  | [] => some []
  | t :: rest =>
    match deStr t, deStrList rest with
    | some s, some l => some (s :: l)
    | _, _ => none

def deOptStrField (kvs : List (String × Toml)) (k : String) : Option (Option String) :=
  match alookup kvs k with
  | none => some none
  | some (Toml.str s) => some (some s)
  | some _ => none

def deStrListField (kvs : List (String × Toml)) (k : String) : Option (List String) :=
  match alookup kvs k with
  | none => some []
  | some (Toml.arr xs) => deStrList xs
  | some _ => none

/-- Deserialisation of ManifestEntry: missing options become None, missing
glob lists become empty (serde defaults); unknown keys are ignored. -/
def de_manifest_entry : Toml → Option ManifestEntry
  | Toml.table kvs =>
    match deOptStrField kvs "path", deOptStrField kvs "version",
        deStrListField kvs "include", deStrListField kvs "exclude" with
    | some p, some v, some inc, some exc => some ⟨p, v, inc, exc⟩
    | _, _, _, _ => none
  | _ => none

def deEntries : List (String × Toml) → Option (List (String × ManifestEntry))
  | [] => some []
  | (k, t) :: rest =>
    match de_manifest_entry t, deEntries rest with
    | some e, some l => some ((k, e) :: l)
    | _, _ => none

/-- Deserialisation of Manifest: version defaults to 1 and must fit u32,
gitignore_references defaults to true, references and bundles default to
empty. -/
def de_manifest (t : Toml) : Option Manifest :=
  match t with
  | Toml.table kvs =>
    let ver : Option Nat :=
      match alookup kvs "version" with
      | none => some 1
      | some (Toml.int (Int.ofNat k)) => if k < 4294967296 then some k else none
      | some (Toml.int (Int.negSucc _)) => none
      | some _ => none
    let gir : Option Bool :=
      match alookup kvs "gitignore_references" with
      | none => some true
      | some (Toml.bool b) => some b
      | some _ => none
    let refs : Option (List (String × ManifestEntry)) :=
      match alookup kvs "references" with
      | none => some []
      | some (Toml.table es) => deEntries es
      | some _ => none
    let bnd : Option (List String) :=
      match alookup kvs "bundles" with
      | none => some []
      | some (Toml.arr xs) => deStrList xs
      | some _ => none
    match ver, gir, refs, bnd with
    | some v, some g, some r, some b => some ⟨v, g, r, b⟩
    | _, _, _, _ => none
  | _ => none

theorem deStrList_map_str (l : List String) : deStrList (l.map Toml.str) = some l := by
  induction l with
  | nil => rfl
  | cons s t ih => simp [deStrList, deStr, ih]

theorem de_ser_entry_nn (inc exc : List String) :
    de_manifest_entry (ser_manifest_entry ⟨none, none, inc, exc⟩) =
      some ⟨none, none, inc, exc⟩ := by
  cases inc <;> cases exc <;>
    simp [ser_manifest_entry, de_manifest_entry, deOptStrField, deStrListField,
      alookup, deStrList, deStr, deStrList_map_str]

theorem de_ser_entry_sn (p : String) (inc exc : List String) :
    de_manifest_entry (ser_manifest_entry ⟨some p, none, inc, exc⟩) =
      some ⟨some p, none, inc, exc⟩ := by
  cases inc <;> cases exc <;>
    simp [ser_manifest_entry, de_manifest_entry, deOptStrField, deStrListField,
      alookup, deStrList, deStr, deStrList_map_str]

theorem de_ser_entry_ns (v : String) (inc exc : List String) :
    de_manifest_entry (ser_manifest_entry ⟨none, some v, inc, exc⟩) =
      some ⟨none, some v, inc, exc⟩ := by
  cases inc <;> cases exc <;>
    simp [ser_manifest_entry, de_manifest_entry, deOptStrField, deStrListField,
      alookup, deStrList, deStr, deStrList_map_str]

theorem de_ser_entry_ss (p v : String) (inc exc : List String) :
    de_manifest_entry (ser_manifest_entry ⟨some p, some v, inc, exc⟩) =
      some ⟨some p, some v, inc, exc⟩ := by
  cases inc <;> cases exc <;>
    simp [ser_manifest_entry, de_manifest_entry, deOptStrField, deStrListField,
      alookup, deStrList, deStr, deStrList_map_str]

theorem de_ser_entry (e : ManifestEntry) :
    de_manifest_entry (ser_manifest_entry e) = some e := by
  obtain ⟨p, v, inc, exc⟩ := e
  cases p with
  | none =>
    cases v with
    | none => exact de_ser_entry_nn inc exc
    | some v => exact de_ser_entry_ns v inc exc
  | some p =>
    cases v with
    | none => exact de_ser_entry_sn p inc exc
    | some v => exact de_ser_entry_ss p v inc exc

theorem deEntries_map (l : List (String × ManifestEntry)) :
    deEntries (l.map (fun p => (p.1, ser_manifest_entry p.2))) = some l := by
  induction l with
  | nil => rfl
  | cons p t ih => simp [deEntries, de_ser_entry, ih]

/-- C9: saving a manifest to the TOML data model and loading it back
yields an equal manifest, losing no field: schema version (any u32),
gitignore flag, every entry with path, version, include and exclude, and
the bundle name list. -/
theorem manifest_round_trip (m : Manifest) (hv : m.version < 4294967296) :
    de_manifest (ser_manifest m) = some m := by
  obtain ⟨ver, gir, refs, bnd⟩ := m
  simp only at hv
  have key : de_manifest (ser_manifest ⟨ver, gir, refs, bnd⟩) =
      match (if ver < 4294967296 then some ver else none),
          some gir, deEntries (refs.map fun p => (p.1, ser_manifest_entry p.2)),
          deStrList (bnd.map Toml.str) with
      | some v, some g, some r, some b => some ⟨v, g, r, b⟩
      | _, _, _, _ => none := rfl
  rw [key, deEntries_map, deStrList_map_str, if_pos hv]

def mC9 : Manifest :=
  ⟨1, true,
   [("a", ⟨some "x", some "v1.0", ["**/*.md"], ["docs/notes.txt"]⟩),
    ("b", ⟨none, none, [], []⟩)],
   ["st"]⟩

/-- C9 witness: the round trip on a concrete manifest exercising every
field. -/
theorem manifest_round_trip_witness : de_manifest (ser_manifest mC9) = some mC9 :=
  manifest_round_trip mC9 (by decide)

/-! ## C10: read_reference_file path containment -/

structure McpResult where
  isError : Bool
  text : String
deriving DecidableEq, Repr

/-- read_reference_file from src/mcp/tools.rs: resolve the content dir,
join the requested path onto it, reject when the joined path does not
start with the content dir (Path::starts_with — a component-prefix check
that performs no dot-dot resolution), then read the file the operating
system resolves the joined path to. -/
def read_reference_file (repo : RepositoryStore) (w : World)
    (readFile : RPath → Option String) (reference path : String) : McpResult :=
  match repo.resolve_content_path reference with
  | some content_dir =>
    if wExists w content_dir then
      let file_path := pjoin content_dir (parsePath path)
      if !(pStartsWith file_path content_dir) then
        ⟨true, "Path traversal not allowed."⟩
      else
        match readFile (pNormalize file_path) with
        | some content => ⟨false, content⟩
        | none => ⟨true, "Failed to read file"⟩
    else ⟨true, "Reference \x27" ++ reference ++ "\x27 has no cached content."⟩
  | none => ⟨true, "Reference \x27" ++ reference ++ "\x27 has no cached content."⟩

def refC10 : Reference :=
  ⟨"r", ReferenceKind.directory, ReferenceSource.localSrc [PComp.root, PComp.normal "s"],
   none, [], 0, none, none⟩

def repoC10 : RepositoryStore :=
  { root := dataRoot
    localReg := { root := dataRoot, index := ⟨1, [("r", refC10)], []⟩ }
    remotes := []
    config := ⟨1⟩ }

def contentC10 : RPath := dataRoot ++ [PComp.normal "content", PComp.normal "r"]

def wC10 : World :=
  { dirs := [dataRoot, dataRoot ++ [PComp.normal "content"], contentC10]
    files := [[PComp.root, PComp.normal "data", PComp.normal "secret"]]
    git := [] }

def readFileC10 : RPath → Option String := fun p =>
  if p = [PComp.root, PComp.normal "data", PComp.normal "secret"] then some "SECRET"
  else none

/-- C10: the dot-dot path ../../secret passes the Path::starts_with check
(component prefixes ignore ParentDir), so read_reference_file reads the
file /data/secret outside the content directory and returns its contents
instead of the path-traversal error the check intends. -/
theorem read_reference_file_traversal_bug :
    read_reference_file repoC10 wC10 readFileC10 "r" "../../secret" =
      ⟨false, "SECRET"⟩
    ∧ pStartsWith (pjoin contentC10 (parsePath "../../secret")) contentC10 = true
    ∧ pStartsWith (pNormalize (pjoin contentC10 (parsePath "../../secret")))
        contentC10 = false := by
  refine ⟨?_, ?_, ?_⟩ <;> decide

end Refstore
